import Mathlib

/-!
Verification development for the Sudoku solver in `SUDOKUSOLVER.py`
(repository kanimba13/sudokuSolver).

Shallow embedding conventions:

* A cell is identified by its index `0..80` in the row-major enumeration
  order of the Python code: the dictionary of candidate sets is built with
  `it.product("123456789", "ABCDEFGHI")`, so index `9*row + col` stands for
  the key `f"{col}{row}"` (index 0 = "A1", 1 = "B1", ..., 8 = "I1",
  9 = "A2", ..., 80 = "I9").
* The Python `varsValues` dictionary (81 keys in that fixed insertion
  order, each mapped to a `set` of ints) is embedded as a `List (Finset ℤ)`
  of length 81, indexed by the cell index; `getS` is dictionary lookup and
  `List.set` is in-place mutation of one entry.  Candidate values are
  integers (`ℤ`) because `load_board` stores any parsed integer `< 10`.
* Python file reading is out of scope: `load_board` receives the list of
  already-parsed integer tokens, one per line of the board file.  Hitting
  the end of the file makes `int(board_fd.readline().strip())` raise
  `ValueError` (parsing the empty string), which is modelled by `none`;
  lines after the 81st are never read.
* The recursive functions of the source terminate because every candidate
  removal strictly shrinks the store; they are embedded with an explicit
  fuel argument that is provably sufficient (`totalSize s + 1` removals can
  never happen, and the search recursion assigns at least one cell per
  level, so depth 82 is never reached).
-/

/-- The Domain Store: the Python `varsValues` dict as a list of candidate
sets indexed by cell (row-major, "A1" = 0, ..., "I9" = 80). -/
abbrev Store := List (Finset ℤ)

/-- Dictionary lookup `varsValues[key]`; out-of-range indices (which never
occur for real cells) give `∅`. -/
def getS : Store → Nat → Finset ℤ
  | [], _ => ∅
  | t :: _, 0 => t
  | _ :: ts, c + 1 => getS ts c

/-- `set(range(1, 10))`, the unconstrained candidate set. -/
def fullSet : Finset ℤ := {1, 2, 3, 4, 5, 6, 7, 8, 9}

/-- The 27 constraint groups, in the exact construction order of the
Python `constraints` list: 9 rows, then 9 columns, then the 9 blocks
(blocks enumerated top-to-bottom, left-to-right; inside a block the cells
are listed row by row, `dr` outer and `dc` inner). -/
def constraints : List (List Nat) :=
  ((List.range 9).map fun r => (List.range 9).map fun c => 9 * r + c) ++
  ((List.range 9).map fun c => (List.range 9).map fun r => 9 * r + c) ++
  (([0, 3, 6].flatMap fun r => [0, 3, 6].map fun c =>
    (List.range 3).flatMap fun dr => (List.range 3).map fun dc =>
      9 * (r + dr) + (c + dc)))

/-- `next(iter(t))` for a candidate set: some element of the set (only
ever used on singletons, where it is the unique element). -/
def pick (t : Finset ℤ) : ℤ := t.min.untop' 0

/-- Total number of candidates over all 81 cells; the measure that every
removal strictly decreases. -/
def totalSize (s : Store) : Nat := ∑ c ∈ Finset.range 81, (getS s c).card

/-- `load_board`: build the store from the parsed integer tokens of the
board file, in row-major cell order.  A token `< 10` makes the cell a
singleton (the Python `if keyValue < 10` branch); any other token leaves
the full set `{1..9}`.  With fewer than 81 tokens the Python code raises
`ValueError` at the end of the file (modelled as `none`); tokens past the
81st are never read. -/
def load_board (tokens : List ℤ) : Option Store :=
  if 81 ≤ tokens.length then
    some ((tokens.take 81).map fun t => if t < 10 then ({t} : Finset ℤ) else fullSet)
  else none

/-! ### Fixpoint propagator (`apply_constraints`)

The Python body is a `while dirty` loop; each iteration is one full pass
over all constraint groups.  `removeAll` is the innermost
`for key in constraint` loop for one solved `cellId`, `passCells` the
`for cellId in constraint` loop, `passConstraints` the
`for constraint in constraints` loop.  The returned `Bool` is the `dirty`
flag contributed by that loop (true iff some value was discarded). -/

/-- Inner loop of `apply_constraints`: remove `u` (the value of the solved
`cellId`) from every other cell of the constraint that still has it. -/
def removeAll (cellId : Nat) (u : ℤ) : Store → List Nat → Store × Bool
  | s, [] => (s, false)
  | s, key :: ks =>
    if key ≠ cellId ∧ u ∈ getS s key then
      let r := removeAll cellId u (s.set key ((getS s key).erase u)) ks
      (r.1, true)
    else removeAll cellId u s ks

/-- Middle loop of `apply_constraints`: scan the cells of one constraint,
and for each cell already reduced to a single value remove that value from
its peers in the constraint. -/
def passCells (constraint : List Nat) : Store → List Nat → Store × Bool
  | s, [] => (s, false)
  | s, cellId :: cells =>
    if (getS s cellId).card = 1 then
      let r := removeAll cellId (pick (getS s cellId)) s constraint
      let r2 := passCells constraint r.1 cells
      (r2.1, r.2 || r2.2)
    else passCells constraint s cells

/-- Outer loop of `apply_constraints`: one scan over every constraint. -/
def passConstraints : Store → List (List Nat) → Store × Bool
  | s, [] => (s, false)
  | s, c :: cs =>
    let r := passCells c s c
    let r2 := passConstraints r.1 cs
    (r2.1, r.2 || r2.2)

/-- One iteration of the `while dirty` loop: a full pass over all 27
constraints, together with the `dirty` flag of that pass. -/
def applyPass (s : Store) : Store × Bool := passConstraints s constraints

/-- The `while dirty` loop with fuel: repeat full passes while a pass
discarded something. -/
def applyFuel : Nat → Store → Store
  | 0, s => s
  | f + 1, s =>
    let p := applyPass s
    if p.2 then applyFuel f p.1 else p.1

/-- `apply_constraints`: iterate passes to the fixpoint.  A dirty pass
strictly decreases `totalSize`, so `totalSize s + 1` passes always reach
the fixpoint (proved below); the fuel is never exhausted. -/
def apply_constraints (s : Store) : Store := applyFuel (totalSize s + 1) s

/-! ### Cascade propagator (`propagate_constraints`)

`goPeers` is the `for peer in constraint` loop, `goConstraints` the
`for constraint in constraints` loop.  The recursive cascade into a peer
reduced to a single candidate is the callback `rec`; `propagateFuel f`
passes itself at fuel `f - 1` as the callback, and `propagate_constraints`
starts with fuel `totalSize s + 1`, which is provably never exhausted
because each recursive cascade is preceded by at least one removal. -/

/-- Inner loop of `propagate_constraints`: discard `value` from each peer,
fail (`false`) as soon as a peer is emptied, and cascade (via `rec`) into
each peer reduced to a single remaining candidate. -/
def goPeers (rec : Store → Nat → ℤ → Store × Bool) (var : Nat) (value : ℤ) :
    Store → List Nat → Store × Bool
  | s, [] => (s, true)
  | s, peer :: ps =>
    if peer ≠ var ∧ value ∈ getS s peer then
      let s' := s.set peer ((getS s peer).erase value)
      if (getS s' peer).card = 0 then (s', false)
      else if (getS s' peer).card = 1 then
        let r := rec s' peer (pick (getS s' peer))
        if r.2 then goPeers rec var value r.1 ps else (r.1, false)
      else goPeers rec var value s' ps
    else goPeers rec var value s ps

/-- Outer loop of `propagate_constraints`: visit every constraint that
contains `var` and process its peers; propagate failure immediately. -/
def goConstraints (rec : Store → Nat → ℤ → Store × Bool) (var : Nat) (value : ℤ) :
    Store → List (List Nat) → Store × Bool
  | s, [] => (s, true)
  | s, c :: cs =>
    if var ∈ c then
      let r := goPeers rec var value s c
      if r.2 then goConstraints rec var value r.1 cs else (r.1, false)
    else goConstraints rec var value s cs

/-- `propagate_constraints` with explicit fuel for the recursive cascade. -/
def propagateFuel : Nat → Store → Nat → ℤ → Store × Bool
  | 0, s, _, _ => (s, false)
  | f + 1, s, var, value => goConstraints (propagateFuel f) var value s constraints

/-- `propagate_constraints(varsValues, var, value)`: remove `value` from
all peers of `var`, cascading into forced peers; returns the mutated store
and `True`/`False` for success/contradiction.  Fuel `totalSize s + 1` is
sufficient because each cascade level is preceded by a removal. -/
def propagate_constraints (s : Store) (var : Nat) (value : ℤ) : Store × Bool :=
  propagateFuel (totalSize s + 1) s var value

/-! ### Backtracking search (`look_forward`) -/

/-- `unassigned_vars = [var for var in varsValues if len(varsValues[var]) > 1]`:
the cells with more than one candidate, in the dictionary's fixed
row-major key order. -/
def unassignedVars (s : Store) : List Nat :=
  (List.range 81).filter fun v => decide (1 < (getS s v).card)

/-- Number of unassigned cells (length of `unassigned_vars`). -/
def countUnassigned (s : Store) : Nat := (unassignedVars s).length

/-- The scan of Python's builtin `min(xs, key=...)`: keep the current
best, replacing it only on a strictly smaller key, so the first minimum
encountered wins. -/
def pythonMinGo (key : Nat → Nat) : Nat → List Nat → Nat
  | best, [] => best
  | best, y :: ys => if key y < key best then pythonMinGo key y ys else pythonMinGo key best ys

/-- Python `min(xs, key=...)` (`none` on the empty list, where Python
raises). -/
def pythonMin (key : Nat → Nat) : List Nat → Option Nat
  | [] => none
  | x :: xs => some (pythonMinGo key x xs)

/-- The branching-cell choice of `look_forward`:
`min(unassigned_vars, key=lambda v: len(varsValues[v]))`, or `none` when
`unassigned_vars` is empty (the terminal case). -/
def selectCell (s : Store) : Option Nat :=
  pythonMin (fun v => (getS s v).card) (unassignedVars s)

/-- Iteration order of `for value in varsValues[chosen].copy()`: a Python
`set` of the small ints `1..9` iterates in ascending order, modelled as
the sorted list of the set. -/
def valueOrder (t : Finset ℤ) : List ℤ := t.sort (· ≤ ·)

/-- The `for value in varsValues[chosen].copy()` loop of `look_forward`:
try each candidate on a fresh copy of the store (`new_varsValues`), run
the cascade propagator on it, recurse (`rec`) on success, and fall through
to the next candidate when the branch dead-ends.  Each trial starts from
the caller's untouched store `s`: this is the deep copy
`{k: v.copy() for k, v in varsValues.items()}` of the source. -/
def tryValues (rec : Store → Option Store) (s : Store) (chosen : Nat) :
    List ℤ → Option Store
  | [] => none
  | value :: rest =>
    let pr := propagate_constraints (s.set chosen {value}) chosen value
    if pr.2 then
      let r := rec pr.1
      if r.isSome then r else tryValues rec s chosen rest
    else tryValues rec s chosen rest

/-- `look_forward` with explicit recursion fuel (one unit per level of
assignment). -/
def look_forwardFuel : Nat → Store → Option Store
  | 0, _ => none
  | f + 1, s =>
    match selectCell s with
    | none => some s
    | some chosen => tryValues (look_forwardFuel f) s chosen (valueOrder (getS s chosen))

/-- `look_forward(varsValues)`: the backtracking search.  At most 81 cells
can be unassigned and every recursive level assigns at least one more
cell, so depth 82 is never reached and fuel 82 is sufficient. -/
def look_forward (s : Store) : Option Store := look_forwardFuel 82 s

/-- The solving pipeline of the main program:
`apply_constraints` then `look_forward`. -/
def solve (s : Store) : Option Store := look_forward (apply_constraints s)

/-! ### Concrete boards used as counterexamples and witnesses -/

/-- An over-constrained board: a complete valid Sudoku solution whose cell
"B1" (index 1, originally 2) has been replaced by 1, duplicating the fixed
value 1 of "A1" in row 1 (and in the top-left block). -/
def overTokens : List ℤ :=
  [1, 1, 3, 4, 5, 6, 7, 8, 9,
   4, 5, 6, 7, 8, 9, 1, 2, 3,
   7, 8, 9, 1, 2, 3, 4, 5, 6,
   2, 3, 4, 5, 6, 7, 8, 9, 1,
   5, 6, 7, 8, 9, 1, 2, 3, 4,
   8, 9, 1, 2, 3, 4, 5, 6, 7,
   3, 4, 5, 6, 7, 8, 9, 1, 2,
   6, 7, 8, 9, 1, 2, 3, 4, 5,
   9, 1, 2, 3, 4, 5, 6, 7, 8]

/-- The Domain Store loaded from `overTokens`. -/
def overStore : Store := (load_board overTokens).getD []

set_option maxRecDepth 100000

/-! ### Basic lemmas about store lookup and update -/

theorem getS_nil (c : Nat) : getS [] c = ∅ := by cases c <;> rfl

theorem getS_eq_empty_of_le : ∀ (s : Store) (c : Nat), s.length ≤ c → getS s c = ∅
  | [], c, _ => getS_nil c
  | _ :: ts, c + 1, h => getS_eq_empty_of_le ts c (Nat.le_of_succ_le_succ h)

theorem lt_length_of_mem_getS {s : Store} {c : Nat} {u : ℤ} (h : u ∈ getS s c) :
    c < s.length := by
  by_contra hlt
  rw [getS_eq_empty_of_le s c (Nat.le_of_not_lt hlt)] at h
  exact absurd h (Finset.not_mem_empty u)

theorem getS_set : ∀ (s : Store) (k : Nat) (v : Finset ℤ) (c : Nat),
    getS (s.set k v) c = if k = c ∧ k < s.length then v else getS s c
  | [], k, v, c => by simp [List.set]
  | a :: ts, 0, v, 0 => by simp [List.set, getS]
  | a :: ts, 0, v, c + 1 => by simp [List.set, getS]
  | a :: ts, k + 1, v, 0 => by simp [List.set, getS]
  | a :: ts, k + 1, v, c + 1 => by
    simp only [List.set, getS, getS_set ts k v c, List.length_cons]
    by_cases h : k = c ∧ k < ts.length
    · rw [if_pos h, if_pos (by omega)]
    · rw [if_neg h, if_neg (by omega)]

theorem getS_set_self {s : Store} {k : Nat} (v : Finset ℤ) (h : k < s.length) :
    getS (s.set k v) k = v := by
  rw [getS_set]; simp [h]

theorem getS_set_ne {s : Store} {k c : Nat} (v : Finset ℤ) (h : k ≠ c) :
    getS (s.set k v) c = getS s c := by
  rw [getS_set]; simp [h]

/-! ### The pointwise shrinking order on stores -/

/-- `Below s' s`: every candidate set of `s'` is contained in the
corresponding candidate set of `s` (propagation only removes values). -/
def Below (s' s : Store) : Prop := ∀ c, getS s' c ⊆ getS s c

theorem Below.rfl {s : Store} : Below s s := fun _ => Finset.Subset.refl _

theorem Below.trans {s₁ s₂ s₃ : Store} (h₁ : Below s₁ s₂) (h₂ : Below s₂ s₃) :
    Below s₁ s₃ := fun c => Finset.Subset.trans (h₁ c) (h₂ c)

theorem Below.nonempty {s' s : Store} (h : Below s' s) {c : Nat}
    (hne : getS s' c ≠ ∅) : getS s c ≠ ∅ := by
  intro he
  exact hne (Finset.subset_empty.1 (he ▸ h c))

theorem below_set_erase (s : Store) (k : Nat) (u : ℤ) :
    Below (s.set k ((getS s k).erase u)) s := by
  intro c
  rw [getS_set]
  split
  · next h => exact h.1 ▸ Finset.erase_subset u (getS s k)
  · exact Finset.Subset.refl _

theorem totalSize_le_of_below {s' s : Store} (h : Below s' s) :
    totalSize s' ≤ totalSize s :=
  Finset.sum_le_sum fun c _ => Finset.card_le_card (h c)

theorem totalSize_set_erase_lt {s : Store} {k : Nat} {u : ℤ}
    (hmem : u ∈ getS s k) (hk : k < 81) :
    totalSize (s.set k ((getS s k).erase u)) < totalSize s := by
  apply Finset.sum_lt_sum
  · exact fun c _ => Finset.card_le_card (below_set_erase s k u c)
  · refine ⟨k, Finset.mem_range.2 hk, ?_⟩
    rw [getS_set_self _ (lt_length_of_mem_getS hmem)]
    exact Finset.card_lt_card (Finset.erase_ssubset hmem)

/-! ### Invariants of the cascade propagator -/

/-- `FailsIff s r`: the call on store `s` returned `False` exactly when
some cell that was nonempty in `s` is empty in the returned store (a cell
was emptied during the cascade). -/
def FailsIff (s : Store) (r : Store × Bool) : Prop :=
  r.2 = false ↔ ∃ c, getS s c ≠ ∅ ∧ getS r.1 c = ∅

theorem failsIff_id_true (s : Store) : FailsIff s (s, true) := by
  constructor
  · intro h
    exact absurd h.symm Bool.false_ne_true
  · rintro ⟨c, h1, h2⟩
    exact absurd h2 h1

theorem failsIff_step {s s₁ : Store} {r : Store × Bool}
    (hb : Below s₁ s) (hne : ∀ c, getS s c ≠ ∅ → getS s₁ c ≠ ∅)
    (h : FailsIff s₁ r) : FailsIff s r := by
  constructor
  · intro hf
    obtain ⟨c, h1, h2⟩ := h.1 hf
    exact ⟨c, hb.nonempty h1, h2⟩
  · rintro ⟨c, h1, h2⟩
    exact h.2 ⟨c, hne c h1, h2⟩

theorem failsIff_true_nonempty {s : Store} {r : Store × Bool}
    (h : FailsIff s r) (ht : r.2 = true) :
    ∀ c, getS s c ≠ ∅ → getS r.1 c ≠ ∅ := by
  intro c h1 h2
  have hf := h.2 ⟨c, h1, h2⟩
  rw [ht] at hf
  cases hf

/-- Every cell index occurring in a constraint group is a real cell. -/
theorem constraints_lt : ∀ c ∈ constraints, ∀ p ∈ c, p < 81 := by decide

theorem goPeers_spec (f : Nat) (rec : Store → Nat → ℤ → Store × Bool)
    (hrec : ∀ s var value, totalSize s < f →
      Below (rec s var value).1 s ∧ FailsIff s (rec s var value))
    (var : Nat) (value : ℤ) :
    ∀ (ps : List Nat) (s : Store), (∀ p ∈ ps, p < 81) → totalSize s ≤ f →
      Below (goPeers rec var value s ps).1 s ∧ FailsIff s (goPeers rec var value s ps) := by
  intro ps
  induction ps with
  | nil =>
    intro s _ _
    exact ⟨Below.rfl, failsIff_id_true s⟩
  | cons peer ps ih =>
    intro s hps hf
    by_cases hg : peer ≠ var ∧ value ∈ getS s peer
    · have hpeer81 : peer < 81 := hps peer (List.mem_cons_self peer ps)
      have hb' : Below (s.set peer ((getS s peer).erase value)) s :=
        below_set_erase s peer value
      have hlt' : totalSize (s.set peer ((getS s peer).erase value)) < totalSize s :=
        totalSize_set_erase_lt hg.2 hpeer81
      simp only [goPeers, if_pos hg]
      set s' := s.set peer ((getS s peer).erase value) with hs'
      by_cases h0 : (getS s' peer).card = 0
      · rw [if_pos h0]
        refine ⟨hb', ⟨fun _ => ⟨peer, Finset.ne_empty_of_mem hg.2, Finset.card_eq_zero.1 h0⟩,
          fun _ => rfl⟩⟩
      · have hne' : ∀ c, getS s c ≠ ∅ → getS s' c ≠ ∅ := by
          intro c hc
          by_cases hcp : peer = c
          · subst hcp
            intro he
            exact h0 (by rw [he]; exact Finset.card_empty)
          · rw [hs', getS_set_ne _ hcp]
            exact hc
        by_cases h1 : (getS s' peer).card = 1
        · rw [if_neg h0, if_pos h1]
          rcases hr : rec s' peer (pick (getS s' peer)) with ⟨s'', b⟩
          have hrec' := hrec s' peer (pick (getS s' peer)) (lt_of_lt_of_le hlt' hf)
          rw [hr] at hrec'
          cases b
          · rw [if_neg Bool.false_ne_true]
            exact ⟨hrec'.1.trans hb', failsIff_step hb' hne' hrec'.2⟩
          · simp only [if_pos rfl]
            have hb'' : Below s'' s' := hrec'.1
            have hne'' : ∀ c, getS s' c ≠ ∅ → getS s'' c ≠ ∅ :=
              failsIff_true_nonempty hrec'.2 rfl
            have hrest := ih s''
              (fun p hp => hps p (List.mem_cons_of_mem peer hp))
              (le_trans (totalSize_le_of_below hb'') (le_of_lt (lt_of_lt_of_le hlt' hf)))
            exact ⟨hrest.1.trans (hb''.trans hb'),
              failsIff_step (hb''.trans hb') (fun c hc => hne'' c (hne' c hc)) hrest.2⟩
        · rw [if_neg h0, if_neg h1]
          have hrest := ih s'
            (fun p hp => hps p (List.mem_cons_of_mem peer hp))
            (le_trans (le_of_lt hlt') hf)
          exact ⟨hrest.1.trans hb', failsIff_step hb' hne' hrest.2⟩
    · simp only [goPeers, if_neg hg]
      exact ih s (fun p hp => hps p (List.mem_cons_of_mem peer hp)) hf

theorem goConstraints_spec (f : Nat) (rec : Store → Nat → ℤ → Store × Bool)
    (hrec : ∀ s var value, totalSize s < f →
      Below (rec s var value).1 s ∧ FailsIff s (rec s var value))
    (var : Nat) (value : ℤ) :
    ∀ (cs : List (List Nat)) (s : Store), (∀ c ∈ cs, ∀ p ∈ c, p < 81) → totalSize s ≤ f →
      Below (goConstraints rec var value s cs).1 s ∧
        FailsIff s (goConstraints rec var value s cs) := by
  intro cs
  induction cs with
  | nil =>
    intro s _ _
    exact ⟨Below.rfl, failsIff_id_true s⟩
  | cons c cs ih =>
    intro s hcs hf
    by_cases hv : var ∈ c
    · simp only [goConstraints, if_pos hv]
      rcases hgp : goPeers rec var value s c with ⟨s₁, b⟩
      have hspec := goPeers_spec f rec hrec var value c s
        (hcs c (List.mem_cons_self c cs)) hf
      rw [hgp] at hspec
      cases b
      · rw [if_neg Bool.false_ne_true]
        exact hspec
      · simp only [if_pos rfl]
        have hb₁ : Below s₁ s := hspec.1
        have hne₁ : ∀ d, getS s d ≠ ∅ → getS s₁ d ≠ ∅ :=
          failsIff_true_nonempty hspec.2 rfl
        have hrest := ih s₁ (fun d hd => hcs d (List.mem_cons_of_mem c hd))
          (le_trans (totalSize_le_of_below hb₁) hf)
        exact ⟨hrest.1.trans hb₁, failsIff_step hb₁ hne₁ hrest.2⟩
    · simp only [goConstraints, if_neg hv]
      exact ih s (fun d hd => hcs d (List.mem_cons_of_mem c hd)) hf

theorem propagateFuel_spec : ∀ (f : Nat) (s : Store) (var : Nat) (value : ℤ),
    totalSize s < f →
    Below (propagateFuel f s var value).1 s ∧ FailsIff s (propagateFuel f s var value) := by
  intro f
  induction f with
  | zero => exact fun s var value h => absurd h (Nat.not_lt_zero _)
  | succ f ih =>
    intro s var value h
    simp only [propagateFuel]
    exact goConstraints_spec f (propagateFuel f) (fun t v w hlt => ih t v w hlt)
      var value constraints s constraints_lt (Nat.lt_succ_iff.1 h)

/-- The two propagation invariants of `propagate_constraints`: the store
only shrinks, and `False` is returned exactly when a nonempty cell was
emptied during the cascade. -/
theorem propagate_spec (s : Store) (var : Nat) (value : ℤ) :
    Below (propagate_constraints s var value).1 s ∧
      FailsIff s (propagate_constraints s var value) :=
  propagateFuel_spec (totalSize s + 1) s var value (Nat.lt_succ_self _)

/-! ### Invariants of the fixpoint propagator -/

theorem removeAll_below (cellId : Nat) (u : ℤ) :
    ∀ (ks : List Nat) (s : Store), Below (removeAll cellId u s ks).1 s := by
  intro ks
  induction ks with
  | nil => exact fun s => Below.rfl
  | cons key ks ih =>
    intro s
    by_cases hg : key ≠ cellId ∧ u ∈ getS s key
    · simp only [removeAll, if_pos hg]
      exact (ih _).trans (below_set_erase s key u)
    · simp only [removeAll, if_neg hg]
      exact ih s

theorem removeAll_false_eq (cellId : Nat) (u : ℤ) :
    ∀ (ks : List Nat) (s : Store),
      (removeAll cellId u s ks).2 = false → (removeAll cellId u s ks).1 = s := by
  intro ks
  induction ks with
  | nil => exact fun s _ => rfl
  | cons key ks ih =>
    intro s
    by_cases hg : key ≠ cellId ∧ u ∈ getS s key
    · simp only [removeAll, if_pos hg]
      intro h
      exact absurd h.symm Bool.false_ne_true
    · simp only [removeAll, if_neg hg]
      exact ih s

theorem removeAll_true_lt (cellId : Nat) (u : ℤ) :
    ∀ (ks : List Nat) (s : Store), (∀ k ∈ ks, k < 81) →
      (removeAll cellId u s ks).2 = true →
      totalSize (removeAll cellId u s ks).1 < totalSize s := by
  intro ks
  induction ks with
  | nil =>
    intro s _ h
    exact absurd h Bool.false_ne_true
  | cons key ks ih =>
    intro s hks
    by_cases hg : key ≠ cellId ∧ u ∈ getS s key
    · simp only [removeAll, if_pos hg]
      intro _
      calc totalSize (removeAll cellId u (s.set key ((getS s key).erase u)) ks).1
          ≤ totalSize (s.set key ((getS s key).erase u)) :=
            totalSize_le_of_below (removeAll_below cellId u ks _)
        _ < totalSize s :=
            totalSize_set_erase_lt hg.2 (hks key (List.mem_cons_self key ks))
    · simp only [removeAll, if_neg hg]
      exact ih s fun k hk => hks k (List.mem_cons_of_mem key hk)

theorem passCells_below (constraint : List Nat) :
    ∀ (cells : List Nat) (s : Store), Below (passCells constraint s cells).1 s := by
  intro cells
  induction cells with
  | nil => exact fun s => Below.rfl
  | cons cellId cells ih =>
    intro s
    by_cases h1 : (getS s cellId).card = 1
    · simp only [passCells, if_pos h1]
      exact (ih _).trans (removeAll_below cellId (pick (getS s cellId)) constraint s)
    · simp only [passCells, if_neg h1]
      exact ih s

theorem passCells_false_eq (constraint : List Nat) :
    ∀ (cells : List Nat) (s : Store),
      (passCells constraint s cells).2 = false → (passCells constraint s cells).1 = s := by
  intro cells
  induction cells with
  | nil => exact fun s _ => rfl
  | cons cellId cells ih =>
    intro s
    by_cases h1 : (getS s cellId).card = 1
    · simp only [passCells, if_pos h1, Bool.or_eq_false_iff]
      rintro ⟨ha, hb⟩
      rw [ih _ hb, removeAll_false_eq _ _ _ _ ha]
    · simp only [passCells, if_neg h1]
      exact ih s

theorem passCells_true_lt (constraint : List Nat) (h81 : ∀ k ∈ constraint, k < 81) :
    ∀ (cells : List Nat) (s : Store),
      (passCells constraint s cells).2 = true →
      totalSize (passCells constraint s cells).1 < totalSize s := by
  intro cells
  induction cells with
  | nil =>
    intro s h
    exact absurd h Bool.false_ne_true
  | cons cellId cells ih =>
    intro s
    by_cases h1 : (getS s cellId).card = 1
    · simp only [passCells, if_pos h1, Bool.or_eq_true_iff]
      intro hd
      rcases Bool.eq_false_or_eq_true (removeAll cellId (pick (getS s cellId)) s constraint).2
        with htr | hfl
      · calc totalSize (passCells constraint
              (removeAll cellId (pick (getS s cellId)) s constraint).1 cells).1
            ≤ totalSize (removeAll cellId (pick (getS s cellId)) s constraint).1 :=
              totalSize_le_of_below (passCells_below constraint cells _)
          _ < totalSize s := removeAll_true_lt cellId _ constraint s h81 htr
      · have heq := removeAll_false_eq cellId (pick (getS s cellId)) constraint s hfl
        have hd2 : (passCells constraint (removeAll cellId (pick (getS s cellId)) s
            constraint).1 cells).2 = true := by
          rcases hd with h | h
          · rw [hfl] at h
            exact absurd h Bool.false_ne_true
          · exact h
        rw [heq] at hd2 ⊢
        exact ih s hd2
    · simp only [passCells, if_neg h1]
      exact ih s

theorem passConstraints_below :
    ∀ (cs : List (List Nat)) (s : Store), Below (passConstraints s cs).1 s := by
  intro cs
  induction cs with
  | nil => exact fun s => Below.rfl
  | cons c cs ih =>
    intro s
    simp only [passConstraints]
    exact (ih _).trans (passCells_below c c s)

theorem passConstraints_false_eq :
    ∀ (cs : List (List Nat)) (s : Store),
      (passConstraints s cs).2 = false → (passConstraints s cs).1 = s := by
  intro cs
  induction cs with
  | nil => exact fun s _ => rfl
  | cons c cs ih =>
    intro s
    simp only [passConstraints, Bool.or_eq_false_iff]
    rintro ⟨ha, hb⟩
    rw [ih _ hb, passCells_false_eq c c s ha]

theorem passConstraints_true_lt :
    ∀ (cs : List (List Nat)) (s : Store), (∀ c ∈ cs, ∀ k ∈ c, k < 81) →
      (passConstraints s cs).2 = true →
      totalSize (passConstraints s cs).1 < totalSize s := by
  intro cs
  induction cs with
  | nil =>
    intro s _ h
    exact absurd h Bool.false_ne_true
  | cons c cs ih =>
    intro s hcs
    simp only [passConstraints, Bool.or_eq_true_iff]
    intro hd
    rcases Bool.eq_false_or_eq_true (passCells c s c).2 with htr | hfl
    · calc totalSize (passConstraints (passCells c s c).1 cs).1
          ≤ totalSize (passCells c s c).1 :=
            totalSize_le_of_below (passConstraints_below cs _)
        _ < totalSize s :=
          passCells_true_lt c (hcs c (List.mem_cons_self c cs)) c s htr
    · have heq := passCells_false_eq c c s hfl
      have hd2 : (passConstraints (passCells c s c).1 cs).2 = true := by
        rcases hd with h | h
        · rw [hfl] at h
          exact absurd h Bool.false_ne_true
        · exact h
      rw [heq] at hd2 ⊢
      exact ih s (fun d hd => hcs d (List.mem_cons_of_mem c hd)) hd2

theorem applyPass_below (s : Store) : Below (applyPass s).1 s :=
  passConstraints_below constraints s

theorem applyPass_false_eq {s : Store} (h : (applyPass s).2 = false) :
    (applyPass s).1 = s :=
  passConstraints_false_eq constraints s h

theorem applyPass_true_lt {s : Store} (h : (applyPass s).2 = true) :
    totalSize (applyPass s).1 < totalSize s :=
  passConstraints_true_lt constraints s constraints_lt h

theorem applyFuel_below : ∀ (f : Nat) (s : Store), Below (applyFuel f s) s := by
  intro f
  induction f with
  | zero => exact fun s => Below.rfl
  | succ f ih =>
    intro s
    by_cases hd : (applyPass s).2 = true
    · simp only [applyFuel, if_pos hd]
      exact (ih _).trans (applyPass_below s)
    · simp only [applyFuel, if_neg hd]
      exact applyPass_below s

/-- With enough fuel, the store returned by the `while dirty` loop is a
fixpoint of a full pass (the next pass changes nothing and is clean). -/
theorem applyFuel_fix : ∀ (f : Nat) (s : Store), totalSize s < f →
    applyPass (applyFuel f s) = (applyFuel f s, false) := by
  intro f
  induction f with
  | zero => exact fun s h => absurd h (Nat.not_lt_zero _)
  | succ f ih =>
    intro s h
    by_cases hd : (applyPass s).2 = true
    · have hlt := applyPass_true_lt hd
      simp only [applyFuel, if_pos hd]
      exact ih (applyPass s).1 (by omega)
    · have hd' : (applyPass s).2 = false := by
        revert hd
        cases (applyPass s).2 <;> simp
      have heq := applyPass_false_eq hd'
      simp only [applyFuel, if_neg hd]
      rw [heq]
      exact Prod.ext_iff.2 ⟨heq, hd'⟩

theorem applyFuel_succ (f : Nat) (s : Store) :
    applyFuel (f + 1) s =
      if (applyPass s).2 then applyFuel f (applyPass s).1 else (applyPass s).1 := rfl

theorem apply_constraints_below (s : Store) : Below (apply_constraints s) s :=
  applyFuel_below _ s

theorem apply_constraints_fix (s : Store) :
    applyPass (apply_constraints s) = (apply_constraints s, false) :=
  applyFuel_fix _ s (Nat.lt_succ_self _)

/-! ### The minimum-remaining-values selection -/

theorem pythonMinGo_spec (key : Nat → Nat) :
    ∀ (xs : List Nat) (best : Nat), List.Pairwise (· < ·) (best :: xs) →
      (pythonMinGo key best xs = best ∨
        (pythonMinGo key best xs ∈ xs ∧ key (pythonMinGo key best xs) < key best)) ∧
      ∀ y ∈ best :: xs, key (pythonMinGo key best xs) ≤ key y ∧
        (key y = key (pythonMinGo key best xs) → pythonMinGo key best xs ≤ y) := by
  intro xs
  induction xs with
  | nil =>
    intro best _
    refine ⟨Or.inl rfl, ?_⟩
    intro y hy
    rcases List.mem_singleton.1 hy with rfl
    exact ⟨le_refl _, fun _ => le_refl _⟩
  | cons z zs ih =>
    intro best hpw
    by_cases hlt : key z < key best
    · simp only [pythonMinGo, if_pos hlt]
      have hpw' : List.Pairwise (· < ·) (z :: zs) := hpw.of_cons
      obtain ⟨hd, hall⟩ := ih z hpw'
      refine ⟨?_, ?_⟩
      · rcases hd with h | ⟨hmem, hk⟩
        · refine Or.inr ⟨?_, ?_⟩
          · rw [h]
            exact List.mem_cons_self z zs
          · rw [h]
            exact hlt
        · exact Or.inr ⟨List.mem_cons_of_mem z hmem, lt_trans hk hlt⟩
      · intro y hy
        rcases List.mem_cons.1 hy with rfl | hy'
        · have hle : key (pythonMinGo key z zs) ≤ key z :=
            (hall z (List.mem_cons_self z zs)).1
          refine ⟨le_of_lt (lt_of_le_of_lt hle hlt), ?_⟩
          intro hEq
          omega
        · exact hall y hy'
    · simp only [pythonMinGo, if_neg hlt]
      have hbz : key best ≤ key z := Nat.le_of_not_lt hlt
      have hpw' : List.Pairwise (· < ·) (best :: zs) := by
        rw [List.pairwise_cons]
        exact ⟨fun y hy => (List.pairwise_cons.1 hpw).1 y (List.mem_cons_of_mem z hy),
          (hpw.of_cons).of_cons⟩
      obtain ⟨hd, hall⟩ := ih best hpw'
      refine ⟨?_, ?_⟩
      · rcases hd with h | ⟨hmem, hk⟩
        · exact Or.inl h
        · exact Or.inr ⟨List.mem_cons_of_mem z hmem, hk⟩
      · intro y hy
        rcases List.mem_cons.1 hy with rfl | hy'
        · exact hall _ (List.mem_cons_self _ _)
        · rcases List.mem_cons.1 hy' with rfl | hy''
          · have hrb : key (pythonMinGo key best zs) ≤ key best :=
              (hall best (List.mem_cons_self best zs)).1
            refine ⟨le_trans hrb hbz, ?_⟩
            intro hEq
            rcases hd with h | ⟨hmem, hk⟩
            · rw [h]
              exact le_of_lt ((List.pairwise_cons.1 hpw).1 y (List.mem_cons_self y zs))
            · omega
          · exact hall y (List.mem_cons_of_mem best hy'')

theorem unassignedVars_pairwise (s : Store) :
    List.Pairwise (· < ·) (unassignedVars s) :=
  (List.pairwise_lt_range 81).filter _

theorem unassignedVars_nodup (s : Store) : (unassignedVars s).Nodup :=
  (List.nodup_range 81).filter _

theorem mem_unassignedVars {s : Store} {v : Nat} :
    v ∈ unassignedVars s ↔ v < 81 ∧ 1 < (getS s v).card := by
  simp [unassignedVars, List.mem_filter, List.mem_range]

theorem selectCell_spec {s : Store} {c : Nat} (h : selectCell s = some c) :
    c ∈ unassignedVars s ∧ ∀ v ∈ unassignedVars s,
      (getS s c).card ≤ (getS s v).card ∧
        ((getS s v).card = (getS s c).card → c ≤ v) := by
  unfold selectCell at h
  rcases hu : unassignedVars s with _ | ⟨x, xs⟩ <;> rw [hu] at h
  · simp [pythonMin] at h
  · simp only [pythonMin, Option.some.injEq] at h
    have hpw : List.Pairwise (· < ·) (x :: xs) := hu ▸ unassignedVars_pairwise s
    obtain ⟨hd, hall⟩ := pythonMinGo_spec (fun v => (getS s v).card) xs x hpw
    rw [h] at hd hall
    constructor
    · rcases hd with h' | ⟨hmem, _⟩
      · rw [h']
        exact List.mem_cons_self x xs
      · exact List.mem_cons_of_mem x hmem
    · intro v hv
      exact hall v hv

/-! ### Unassigned-cell counting for the search -/

theorem countUnassigned_le (s : Store) : countUnassigned s ≤ 81 := by
  have h := List.length_filter_le
    (fun v => decide (1 < (getS s v).card)) (List.range 81)
  simpa [countUnassigned, unassignedVars] using h

theorem countUnassigned_propagate_lt {s : Store} {chosen : Nat} (value : ℤ)
    (h : selectCell s = some chosen) :
    countUnassigned (propagate_constraints (s.set chosen {value}) chosen value).1 <
      countUnassigned s := by
  have hmem := (selectCell_spec h).1
  obtain ⟨hc81, hccard⟩ := mem_unassignedVars.1 hmem
  have hlen : chosen < s.length := by
    by_contra hle
    rw [getS_eq_empty_of_le s chosen (Nat.le_of_not_lt hle)] at hccard
    simp [Finset.card_empty] at hccard
  have hbel : Below (propagate_constraints (s.set chosen {value}) chosen value).1
      (s.set chosen {value}) := (propagate_spec _ _ _).1
  have hsub : ∀ v ∈ unassignedVars
      (propagate_constraints (s.set chosen {value}) chosen value).1,
      v ∈ unassignedVars s ∧ v ≠ chosen := by
    intro v hv
    obtain ⟨hv81, hvcard⟩ := mem_unassignedVars.1 hv
    have hvc : v ≠ chosen := by
      intro heq
      subst heq
      have hss := Finset.card_le_card
        ((hbel v).trans (le_of_eq (getS_set_self ({value} : Finset ℤ) hlen)))
      rw [Finset.card_singleton] at hss
      omega
    refine ⟨mem_unassignedVars.2 ⟨hv81, ?_⟩, hvc⟩
    have hsubv := Finset.card_le_card (hbel v)
    rw [getS_set_ne _ (fun he => hvc he.symm)] at hsubv
    omega
  have hsubF : (unassignedVars
      (propagate_constraints (s.set chosen {value}) chosen value).1).toFinset ⊆
      (unassignedVars s).toFinset := by
    intro v hv
    rw [List.mem_toFinset] at hv ⊢
    exact (hsub v hv).1
  have hfin : (unassignedVars
      (propagate_constraints (s.set chosen {value}) chosen value).1).toFinset ⊂
      (unassignedVars s).toFinset := by
    rw [Finset.ssubset_iff_of_subset hsubF]
    refine ⟨chosen, ?_, ?_⟩
    · rw [List.mem_toFinset]
      exact hmem
    · rw [List.mem_toFinset]
      intro hmem'
      exact (hsub chosen hmem').2 rfl
  have hcard := Finset.card_lt_card hfin
  rwa [List.toFinset_card_of_nodup (unassignedVars_nodup _),
    List.toFinset_card_of_nodup (unassignedVars_nodup s)] at hcard

/-! ### Board loading helpers -/

theorem getS_map (l : List ℤ) (f : ℤ → Finset ℤ) :
    ∀ i : Nat, i < l.length → getS (l.map f) i = f (l.getD i 0) := by
  induction l with
  | nil =>
    intro i hi
    exact absurd hi (by simp)
  | cons a t ih =>
    intro i hi
    cases i with
    | zero => rfl
    | succ i =>
      simp only [List.map, getS, List.getD_cons_succ]
      exact ih i (by simpa using hi)

theorem getD_take (l : List ℤ) :
    ∀ (n i : Nat), i < n → (l.take n).getD i 0 = l.getD i 0 := by
  induction l with
  | nil =>
    intro n i _
    simp
  | cons a t ih =>
    intro n i hin
    cases n with
    | zero => omega
    | succ n =>
      cases i with
      | zero => rfl
      | succ i =>
        simp only [List.take, List.getD_cons_succ]
        exact ih n i (by omega)

theorem getS_load {tokens : List ℤ} {st : Store} (h : load_board tokens = some st)
    {i : Nat} (hi : i < 81) :
    getS st i =
      if tokens.getD i 0 < 10 then ({tokens.getD i 0} : Finset ℤ) else fullSet := by
  unfold load_board at h
  by_cases hlen : 81 ≤ tokens.length
  · rw [if_pos hlen, Option.some.injEq] at h
    subst h
    rw [getS_map _ _ i (by rw [List.length_take]; omega), getD_take tokens 81 i hi]
  · rw [if_neg hlen] at h
    cases h

/-! ### Additional concrete stores for witnesses and counterexamples -/

/-- A malformed board input: the first token is `-1`, a value outside
`[0, 9]` and outside the blank-sentinel convention (`≥ 10`); the remaining
80 tokens are blanks. -/
def negTokens : List ℤ := (-1) :: List.replicate 80 10

/-- The completely blank store (every cell unconstrained). -/
def allBlank : Store := List.replicate 81 fullSet

/-- Concrete evaluation of the whole pipeline on the over-constrained
board: `apply_constraints` empties cell "B1" (index 1) and the search then
returns the store immediately, because an empty candidate set does not
count as unassigned. -/
theorem solve_overStore_eq : solve overStore = some (overStore.set 1 ∅) := by decide

/-! ### Claim theorems -/

/-- C1: the spec claims that a store returned by `solve`
(`apply_constraints` followed by `look_forward`) always has every cell
reduced to a singleton and every constraint group containing each value
1-9 exactly once, and that a partially-assigned store is never returned.
The code violates this: on the over-constrained board `overStore` the
fixpoint propagator empties cell "B1" (index 1), the emptied cell does not
count as unassigned (`len > 1` is the only terminal test), and `solve`
returns a store in which cell "B1" has the empty candidate set — not a
singleton, and row 1 does not contain every value. -/
theorem C1_partial_store_returned :
    solve overStore = some (overStore.set 1 ∅) ∧
      getS (overStore.set 1 ∅) 1 = (∅ : Finset ℤ) :=
  ⟨solve_overStore_eq, by decide⟩

/-- C2: the spec claims that a grid with two identical fixed values in the
same constraint group always yields the explicit no-solution result.  The
code violates this: `overStore` fixes value 1 in both cells "A1" (index 0)
and "B1" (index 1), which share the row-1 constraint group (the first
group of `constraints`), yet `solve` returns a store rather than `none`. -/
theorem C2_overconstrained_returns_store :
    getS overStore 0 = {(1 : ℤ)} ∧ getS overStore 1 = {(1 : ℤ)} ∧
      (0 ∈ constraints.getD 0 [] ∧ 1 ∈ constraints.getD 0 []) ∧
      solve overStore ≠ none := by
  refine ⟨by decide, by decide, by decide, ?_⟩
  rw [solve_overStore_eq]
  exact fun h => Option.noConfusion h

/-- C3: `propagate_constraints` returns `False` exactly when some cell's
candidate set becomes empty during the transitive cascade (it was nonempty
before the call and is empty in the store the call leaves behind), and
returns `True` only when no cell was emptied anywhere in the cascade,
including the recursive propagation of peers reduced to one candidate. -/
theorem C3_contradiction_iff_emptied (s : Store) (var : Nat) (value : ℤ) :
    (propagate_constraints s var value).2 = false ↔
      ∃ c : Nat, getS s c ≠ ∅ ∧ getS (propagate_constraints s var value).1 c = ∅ :=
  (propagate_spec s var value).2

/-- C4: the fixpoint propagator is idempotent — running
`apply_constraints` twice yields exactly the store obtained by running it
once. -/
theorem C4_apply_constraints_idempotent (s : Store) :
    apply_constraints (apply_constraints s) = apply_constraints s := by
  have hfix := apply_constraints_fix s
  show applyFuel (totalSize (apply_constraints s) + 1) (apply_constraints s) =
    apply_constraints s
  rw [applyFuel_succ, hfix]
  simp

/-- C5: propagation is monotone — after `apply_constraints`, and after
`propagate_constraints` (whatever Boolean it returns), every cell's
candidate set is a subset of what it was before the call. -/
theorem C5_propagation_monotone :
    (∀ (s : Store) (c : Nat), getS (apply_constraints s) c ⊆ getS s c) ∧
      ∀ (s : Store) (var : Nat) (value : ℤ) (c : Nat),
        getS (propagate_constraints s var value).1 c ⊆ getS s c :=
  ⟨fun s c => apply_constraints_below s c,
   fun s var value c => (propagate_spec s var value).1 c⟩

/-- C6: when `look_forward` is not in its terminal case, the chosen cell
is unassigned (more than one candidate), has minimal candidate-set size
among all unassigned cells, and on ties is the first cell in the fixed
row-major enumeration order (smallest index). -/
theorem C6_mrv_first_minimum {s : Store} {c : Nat} (h : selectCell s = some c) :
    (c < 81 ∧ 1 < (getS s c).card) ∧
      ∀ v : Nat, v < 81 → 1 < (getS s v).card →
        (getS s c).card ≤ (getS s v).card ∧
          ((getS s v).card = (getS s c).card → c ≤ v) := by
  obtain ⟨hmem, hall⟩ := selectCell_spec h
  refine ⟨mem_unassignedVars.1 hmem, ?_⟩
  intro v hv81 hvcard
  exact hall v (mem_unassignedVars.2 ⟨hv81, hvcard⟩)

/-- Witness for C6 at a concrete store: on the all-blank board every cell
ties at 9 candidates and the selection is cell 0 ("A1"), the first in
row-major order. -/
theorem C6_mrv_first_minimum_witness :
    selectCell allBlank = some 0 ∧
      ((0 < 81 ∧ 1 < (getS allBlank 0).card) ∧
        ∀ v : Nat, v < 81 → 1 < (getS allBlank v).card →
          (getS allBlank 0).card ≤ (getS allBlank v).card ∧
            ((getS allBlank v).card = (getS allBlank 0).card → 0 ≤ v)) :=
  ⟨by decide, C6_mrv_first_minimum (by decide)⟩

/-- C7 counterexample: the claim says a value outside `[0, 9]` and outside
the blank-sentinel convention is a fatal input error, never silently
coerced into the store.  But on `negTokens`, whose first token is `-1`,
`load_board` succeeds and stores the singleton `{-1}` for cell 0. -/
theorem C7_malformed_not_rejected :
    negTokens.getD 0 0 = (-1 : ℤ) ∧ (load_board negTokens).isSome = true ∧
      getS ((load_board negTokens).getD []) 0 = ({-1} : Finset ℤ) :=
  ⟨by decide, by decide, by decide⟩

/-- C7 (amended): with at least 81 tokens, a token that is an integer 1-9
yields the singleton containing it and a token `≥ 10` (the blank sentinel)
yields the full set `{1..9}`; fewer than 81 tokens is a fatal input error;
but a token `≤ 0` is silently coerced to the singleton containing it
(and tokens past the 81st are silently ignored) rather than rejected. -/
theorem C7_load_board_amended (tokens : List ℤ) :
    (tokens.length < 81 → load_board tokens = none) ∧
      (∀ st, load_board tokens = some st → ∀ i : Nat, i < 81 →
        (1 ≤ tokens.getD i 0 ∧ tokens.getD i 0 ≤ 9 →
          getS st i = {tokens.getD i 0}) ∧
        (10 ≤ tokens.getD i 0 → getS st i = fullSet) ∧
        (tokens.getD i 0 ≤ 0 → getS st i = {tokens.getD i 0})) := by
  constructor
  · intro hlen
    unfold load_board
    rw [if_neg (by omega)]
  · intro st hst i hi
    have hg := getS_load hst hi
    refine ⟨?_, ?_, ?_⟩
    · rintro ⟨h1, _⟩
      rw [hg, if_pos (by omega)]
    · intro h10
      rw [hg, if_neg (by omega)]
    · intro h0
      rw [hg, if_pos (by omega)]

/-- Witness for the amended C7 on `negTokens`: 81 tokens load
successfully, the out-of-range first token `-1` is coerced to `{-1}`, and
the second token `10` (a blank) yields the full set. -/
theorem C7_load_board_amended_witness :
    load_board negTokens = some ((load_board negTokens).getD []) ∧
      (1 : Nat) < 81 ∧ (10 : ℤ) ≤ negTokens.getD 1 0 ∧
      getS ((load_board negTokens).getD []) 1 = fullSet :=
  ⟨by decide, by decide, by decide,
    ((C7_load_board_amended negTokens).2 _ (by decide) 1 (by decide)).2.1 (by decide)⟩

/-- C8: the search cannot recurse more than 81 levels deep — a store never
has more than 81 unassigned cells, and the store handed to each recursive
`look_forward` call (the result of propagating the trial assignment of the
selected cell) has strictly fewer cells with more than one candidate than
the caller's store. -/
theorem C8_search_depth_bound :
    (∀ s : Store, countUnassigned s ≤ 81) ∧
      ∀ (s : Store) (chosen : Nat) (value : ℤ), selectCell s = some chosen →
        countUnassigned (propagate_constraints (s.set chosen {value}) chosen value).1 <
          countUnassigned s :=
  ⟨countUnassigned_le, fun _ _ value h => countUnassigned_propagate_lt value h⟩

/-- Witness for C8 at a concrete store: assigning 1 to the selected cell 0
of the all-blank board strictly decreases the number of unassigned
cells. -/
theorem C8_search_depth_bound_witness :
    selectCell allBlank = some 0 ∧
      countUnassigned (propagate_constraints (allBlank.set 0 {1}) 0 1).1 <
        countUnassigned allBlank :=
  ⟨by decide, C8_search_depth_bound.2 allBlank 0 1 (by decide)⟩

/-- C9: branch isolation in the search.  Every trial assignment operates
on its own copy `s.set chosen {value}` built from the caller's store `s`;
when the trial branch dead-ends (its propagation signals a contradiction,
or the recursive search under it fails), the remaining candidate values
are tried on the very same `s`, so a failed branch leaves no trace on its
siblings and the caller's store is never modified. -/
theorem C9_branch_isolation (f : Nat) (s : Store) (chosen : Nat) (value : ℤ)
    (rest : List ℤ)
    (h : (propagate_constraints (s.set chosen {value}) chosen value).2 = false ∨
      look_forwardFuel f (propagate_constraints (s.set chosen {value}) chosen value).1 =
        none) :
    tryValues (look_forwardFuel f) s chosen (value :: rest) =
      tryValues (look_forwardFuel f) s chosen rest := by
  rcases h with h | h
  · simp only [tryValues, h]
    rw [if_neg Bool.false_ne_true]
  · by_cases hp : (propagate_constraints (s.set chosen {value}) chosen value).2 = true
    · simp only [tryValues, hp, h]
      simp
    · simp only [tryValues]
      rw [if_neg hp]

/-- Witness for C9 at a concrete instance: with exhausted recursion the
branch for value 1 on the all-blank board falls through to the remaining
(empty) list of values over the unchanged store. -/
theorem C9_branch_isolation_witness :
    look_forwardFuel 0 (propagate_constraints (allBlank.set 0 {1}) 0 1).1 = none ∧
      tryValues (look_forwardFuel 0) allBlank 0 [1] =
        tryValues (look_forwardFuel 0) allBlank 0 [] :=
  ⟨rfl, C9_branch_isolation 0 allBlank 0 1 [] (Or.inr rfl)⟩

/-- C10: if the assigned cell `var` holds exactly the singleton `{value}`
and `propagate_constraints` succeeds, the returned store still holds
exactly `{value}` at `var` — the cascade never strips the assigned cell on
the success path. -/
theorem C10_assigned_cell_preserved (s : Store) (var : Nat) (value : ℤ)
    (h1 : getS s var = {value})
    (h2 : (propagate_constraints s var value).2 = true) :
    getS (propagate_constraints s var value).1 var = {value} := by
  obtain ⟨hb, hiff⟩ := propagate_spec s var value
  have hsub : getS (propagate_constraints s var value).1 var ⊆ {value} :=
    h1 ▸ hb var
  have hne : getS (propagate_constraints s var value).1 var ≠ ∅ := by
    intro he
    have hf := hiff.2 ⟨var, by rw [h1]; exact Finset.singleton_ne_empty value, he⟩
    rw [h2] at hf
    exact absurd hf.symm Bool.false_ne_true
  rcases Finset.subset_singleton_iff.1 hsub with he | he
  · exact absurd he hne
  · exact he

/-- Witness for C10 at a concrete store: cell 0 assigned `{5}` on an
otherwise blank board; propagation succeeds and cell 0 still holds
`{5}`. -/
theorem C10_assigned_cell_preserved_witness :
    getS (allBlank.set 0 {5}) 0 = ({5} : Finset ℤ) ∧
      (propagate_constraints (allBlank.set 0 {5}) 0 5).2 = true ∧
      getS (propagate_constraints (allBlank.set 0 {5}) 0 5).1 0 = ({5} : Finset ℤ) :=
  ⟨by decide, by decide,
    C10_assigned_cell_preserved (allBlank.set 0 {5}) 0 5 (by decide) (by decide)⟩
